import Mathlib

/-!
# Verification of `bigstream/features.py`

Shallow embedding of the correspondence-matching pipeline of
`src/bigstream/features.py`:

* `get_contexts`   — neighborhood extraction by numpy basic slicing,
* `_stats` / `pairwise_correlation` — Pearson correlation of flattened
  neighborhoods, with numpy NaN semantics modelled explicitly,
* `match_points`   — distance-gated greedy matching.

Machine floats are modelled as exact arithmetic: the matching code (which
uses only ring and order operations) over an arbitrary linear ordered
field, and the correlation code (which needs a square root) over `ℝ`.
numpy special values (`nan`, `±inf`) produced by division are modelled by
the inductive `RF` wrapper around `ℝ`.
-/

namespace Features

/-! ## Matching machinery (`match_points`)

`a_pos`, `b_pos` are lists of coordinate rows, `scores` a list of score
rows.  All numpy arrays are modelled as lists; fancy indexing is modelled
index-by-index with `List.getD`, which agrees with the source on the
shape-coherent inputs numpy accepts (numpy raises on mismatched shapes).
-/

variable {α : Type} [LinearOrderedField α]

/-- Squared Euclidean distance between two coordinate rows
(`scipy.spatial.cKDTree` distances are Euclidean over full rows). -/
def sqDist (p q : List α) : α :=
  ((p.zip q).map (fun x => (x.1 - x.2) ^ 2)).sum

/-- `cKDTree.query_ball_tree` membership: `j` is returned for `i` iff the
Euclidean distance is at most `max_distance`.  Stated on squared
distances to stay inside the field; for `d < 0` the query returns
nothing, hence the `0 ≤ d` conjunct. -/
abbrev inRange (d : α) (p q : List α) : Prop :=
  0 ≤ d ∧ sqDist p q ≤ d ^ 2

/-- `np.max` over the whole score matrix: `none` models the `ValueError`
numpy raises on an empty array. -/
def npMax (scores : List (List α)) : Option α :=
  match scores.flatten with
  | [] => none
  | x :: xs => some (xs.foldl max x)

/-- `np.argmax` over one row: index of the first occurrence of the
maximum (numpy's stable argmax). -/
def argmaxIdx : List α → ℕ
  | [] => 0
  | x :: xs => if xs.foldl max x ≤ x then 0 else argmaxIdx xs + 1

/-- The gating loop `scores[iii, fancy_index] += max_score`: every
in-range entry is raised by `ms`, out-of-range entries are untouched. -/
def boostedScores (aPos bPos : List (List α)) (scores : List (List α))
    (d ms : α) : List (List α) :=
  (List.range scores.length).map (fun i =>
    (List.range ((scores.getD i []).length)).map (fun j =>
      if inRange d (aPos.getD i []) (bPos.getD j []) then
        (scores.getD i []).getD j 0 + ms
      else
        (scores.getD i []).getD j 0))

/-- The gated score matrix and raised threshold: the `if max_distance is
not None` block of `match_points`. -/
def gated (aPos bPos : List (List α)) (scores : List (List α))
    (threshold : α) (maxDistance : Option α) (ms : α) :
    List (List α) × α :=
  match maxDistance with
  | none => (scores, threshold)
  | some d => (boostedScores aPos bPos scores d ms, threshold + ms)

/-- Row indices surviving `keeps = scores[(a_indcs, best_indcs)] >
threshold` (the boolean mask over rows). -/
def keptIndices (scores : List (List α)) (threshold : α) : List ℕ :=
  (List.range scores.length).filter (fun i =>
    threshold < (scores.getD i []).getD (argmaxIdx (scores.getD i [])) 0)

/-- `match_points(a_pos, b_pos, scores, threshold, max_distance)`.
`none` models the `ValueError` of `np.max` on an empty score matrix;
otherwise the result is `a_pos[keeps, :3]` paired with
`b_pos[best_indcs[keeps], :3]`. -/
def match_points (aPos bPos : List (List α)) (scores : List (List α))
    (threshold : α) (maxDistance : Option α) :
    Option (List (List α) × List (List α)) :=
  match npMax scores with
  | none => none
  | some m =>
    let g := gated aPos bPos scores threshold maxDistance (m + 1)
    let ki := keptIndices g.1 g.2
    some (ki.map (fun i => (aPos.getD i []).take 3),
          ki.map (fun i =>
            (bPos.getD (argmaxIdx (g.1.getD i [])) []).take 3))

/-! ### Basic lemmas about the matching machinery -/

theorem getD_range_map {β : Type} (f : ℕ → β) {n i : ℕ} (d : β)
    (h : i < n) : ((List.range n).map f).getD i d = f i := by
  simp [List.getD_eq_getElem?_getD, List.getElem?_map, List.getElem?_range h]

theorem le_foldl_max (xs : List α) (a : α) :
    a ≤ xs.foldl max a ∧ ∀ x ∈ xs, x ≤ xs.foldl max a := by
  induction xs generalizing a with
  | nil => simp
  | cons y ys ih =>
    refine ⟨?_, ?_⟩
    · exact le_trans (le_max_left a y) (ih (max a y)).1
    · intro x hx
      rcases List.mem_cons.mp hx with rfl | hx
      · exact le_trans (le_max_right a x) (ih (max a x)).1
      · exact (ih (max a y)).2 x hx

theorem npMax_le {scores : List (List α)} {m : α}
    (hm : npMax scores = some m) : ∀ x ∈ scores.flatten, x ≤ m := by
  unfold npMax at hm
  cases h : scores.flatten with
  | nil => rw [h] at hm; exact absurd hm (by simp)
  | cons y ys =>
    rw [h] at hm
    have hm' : ys.foldl max y = m := by simpa using hm
    intro x hx
    rcases List.mem_cons.mp hx with rfl | hx
    · exact hm' ▸ (le_foldl_max ys x).1
    · exact hm' ▸ (le_foldl_max ys y).2 x hx

theorem getD_mem {β : Type} {l : List β} {i : ℕ} (d : β)
    (h : i < l.length) : l.getD i d ∈ l := by
  rw [List.getD_eq_getElem?_getD, List.getElem?_eq_getElem h]
  simp

theorem getD_mem_flatten {scores : List (List α)} {i j : ℕ}
    (hi : i < scores.length) (hj : j < (scores.getD i []).length) :
    (scores.getD i []).getD j 0 ∈ scores.flatten :=
  List.mem_flatten.mpr ⟨scores.getD i [], getD_mem [] hi, getD_mem 0 hj⟩

theorem boostedScores_length (aPos bPos scores : List (List α))
    (d ms : α) : (boostedScores aPos bPos scores d ms).length =
      scores.length := by
  simp [boostedScores]

theorem boostedScores_getD (aPos bPos scores : List (List α)) (d ms : α)
    {i j : ℕ} (hi : i < scores.length)
    (hj : j < (scores.getD i []).length) :
    ((boostedScores aPos bPos scores d ms).getD i []).getD j 0 =
      if inRange d (aPos.getD i []) (bPos.getD j []) then
        (scores.getD i []).getD j 0 + ms
      else (scores.getD i []).getD j 0 := by
  unfold boostedScores
  rw [getD_range_map _ _ hi, getD_range_map _ _ hj]

theorem boostedScores_row_length (aPos bPos scores : List (List α))
    (d ms : α) {i : ℕ} (hi : i < scores.length) :
    ((boostedScores aPos bPos scores d ms).getD i []).length =
      (scores.getD i []).length := by
  unfold boostedScores
  rw [getD_range_map _ _ hi]
  simp

theorem mem_keptIndices {scores : List (List α)} {threshold : α}
    {i : ℕ} : i ∈ keptIndices scores threshold ↔
      i < scores.length ∧
        threshold <
          (scores.getD i []).getD (argmaxIdx (scores.getD i [])) 0 := by
  simp [keptIndices, List.mem_filter, List.mem_range]

theorem keptIndices_nodup (scores : List (List α)) (threshold : α) :
    (keptIndices scores threshold).Nodup :=
  (List.nodup_range _).filter _

theorem keptIndices_length_le (scores : List (List α)) (threshold : α) :
    (keptIndices scores threshold).length ≤ scores.length := by
  calc (keptIndices scores threshold).length
      ≤ (List.range scores.length).length := List.length_filter_le _ _
    _ = scores.length := List.length_range _

theorem argmaxIdx_lt (l : List α) (h : l ≠ []) : argmaxIdx l < l.length := by
  induction l with
  | nil => exact absurd rfl h
  | cons x xs ih =>
    unfold argmaxIdx
    by_cases hc : xs.foldl max x ≤ x
    · simp [hc]
    · simp only [hc, if_false]
      have hxs : xs ≠ [] := by
        intro hn; rw [hn] at hc; exact hc (le_refl x)
      have := ih hxs
      simpa [Nat.succ_lt_succ_iff] using this

theorem gated_fst_length (aPos bPos scores : List (List α)) (th : α)
    (d? : Option α) (ms : α) :
    (gated aPos bPos scores th d? ms).1.length = scores.length := by
  cases d? with
  | none => rfl
  | some d => exact boostedScores_length aPos bPos scores d ms

theorem gated_fst_row_length (aPos bPos scores : List (List α)) (th : α)
    (d? : Option α) (ms : α) {i : ℕ} (hi : i < scores.length) :
    ((gated aPos bPos scores th d? ms).1.getD i []).length =
      (scores.getD i []).length := by
  cases d? with
  | none => rfl
  | some d => exact boostedScores_row_length aPos bPos scores d ms hi

theorem match_points_eq_some {aPos bPos scores : List (List α)} {th : α}
    {d? : Option α} {m : α} (hm : npMax scores = some m) :
    match_points aPos bPos scores th d? =
      some ((keptIndices (gated aPos bPos scores th d? (m + 1)).1
               (gated aPos bPos scores th d? (m + 1)).2).map
              (fun i => (aPos.getD i []).take 3),
            (keptIndices (gated aPos bPos scores th d? (m + 1)).1
               (gated aPos bPos scores th d? (m + 1)).2).map
              (fun i =>
                (bPos.getD
                  (argmaxIdx
                    ((gated aPos bPos scores th d? (m + 1)).1.getD i []))
                  []).take 3)) := by
  unfold match_points
  rw [hm]

theorem npMax_eq_some_pos_row {scores : List (List α)} {m : α}
    (hm : npMax scores = some m) :
    ∃ r ∈ scores, 0 < r.length := by
  unfold npMax at hm
  cases h : scores.flatten with
  | nil => rw [h] at hm; exact absurd hm (by simp)
  | cons y ys =>
    have hy : y ∈ scores.flatten := by rw [h]; exact List.mem_cons_self y ys
    rcases List.mem_flatten.mp hy with ⟨r, hr, hyr⟩
    exact ⟨r, hr, List.length_pos.mpr (List.ne_nil_of_mem hyr)⟩

/-! ## Claim theorems about `match_points` -/

/-- Claim C1, counterexample to the claim as stated: the spec asserts the
gating construction works "for every score matrix and every threshold",
but for `threshold = -2 < -1` an out-of-range pair (distance 5 with
`max_distance = 1`) crosses the raised threshold (`0 > -2 + (0+1)`) and
`match_points` matches it, even though it was never boosted. -/
theorem gating_threshold_counterexample :
    ¬ inRange (1 : ℚ) [0, 0, 0] [0, 0, 5]
  ∧ (-2 : ℚ) + (0 + 1) <
      ((boostedScores [[0, 0, 0]] [[0, 0, 5]] [[0]] 1 (0 + 1)).getD 0
        []).getD 0 0
  ∧ match_points (α := ℚ) [[0, 0, 0]] [[0, 0, 5]] [[0]] (-2) (some 1)
      = some ([[0, 0, 0]], [[0, 0, 5]]) := by
  refine ⟨?_, ?_, ?_⟩
  · norm_num [inRange, sqDist]
  · norm_num [boostedScores, inRange, sqDist]
  · norm_num [match_points, npMax, gated, boostedScores, keptIndices,
      argmaxIdx, inRange, sqDist, List.filter, List.range_succ]

/-- Claim C1 (amended: the threshold must be at least `-1`, as always
holds for correlation-score thresholds): when `max_distance` gating adds
`max_score = max(scores) + 1` to every in-range entry and raises the
threshold by `max_score`, an entry is above the raised threshold iff it
is in range and above the original threshold; in particular an
out-of-range pair, however high its raw score, can never cross the
raised threshold.  Moreover on the spec's concrete instance
`A = [(0,0,0)]`, `B = [(0,0,5), (0,0,100)]`, `scores = [[0.9, 0.95]]`,
`threshold = 0.5`, `max_distance = 10`, the output is the single pair
`A[0] ↔ B[0]`. -/
theorem gating_equiv_of_threshold_ge_neg_one :
    (∀ (α : Type) [LinearOrderedField α]
        (aPos bPos scores : List (List α)) (th d m : α) (i j : ℕ),
        npMax scores = some m → -1 ≤ th → i < scores.length →
        j < (scores.getD i []).length →
        (th + (m + 1) <
            ((boostedScores aPos bPos scores d (m + 1)).getD i []).getD j 0
          ↔ inRange d (aPos.getD i []) (bPos.getD j []) ∧
              th < (scores.getD i []).getD j 0))
  ∧ match_points (α := ℚ) [[0, 0, 0]] [[0, 0, 5], [0, 0, 100]]
      [[9/10, 19/20]] (1/2) (some 10)
      = some ([[0, 0, 0]], [[0, 0, 5]]) := by
  constructor
  · intro α _ aPos bPos scores th d m i j hm hth hi hj
    rw [boostedScores_getD aPos bPos scores d (m + 1) hi hj]
    have hle : (scores.getD i []).getD j 0 ≤ m :=
      npMax_le hm _ (getD_mem_flatten hi hj)
    by_cases hr : inRange d (aPos.getD i []) (bPos.getD j [])
    · rw [if_pos hr]
      constructor
      · intro h
        exact ⟨hr, lt_of_add_lt_add_right h⟩
      · intro h
        exact add_lt_add_right h.2 (m + 1)
    · rw [if_neg hr]
      constructor
      · intro h
        exfalso
        linarith
      · intro h
        exact absurd h.1 hr
  · norm_num [match_points, npMax, gated, boostedScores, keptIndices,
      argmaxIdx, inRange, sqDist, List.filter, List.range_succ]

/-- Witness for C1's amended theorem at a concrete instance. -/
theorem gating_equiv_witness :
    (0 : ℚ) + (0 + 1) <
        ((boostedScores [[0, 0, 0]] [[0, 0, 5]] [[0]] 10 (0 + 1)).getD 0
          []).getD 0 0
      ↔ inRange (10 : ℚ) [0, 0, 0] [0, 0, 5] ∧ (0 : ℚ) < 0 :=
  gating_equiv_of_threshold_ge_neg_one.1 ℚ [[0, 0, 0]] [[0, 0, 5]] [[0]]
    0 10 0 0 0 (by norm_num [npMax]) (by norm_num) (by norm_num)
    (by norm_num)

/-- Claim C5 (confirmed): a row is kept iff its best score is strictly
greater than the (possibly raised) threshold; a best score exactly equal
to the threshold produces no match, and on the spec's concrete instance
`scores = [[0.5]]`, `threshold = 0.5`, no `max_distance`, the output is
empty. -/
theorem match_points_strict_threshold :
    (∀ (α : Type) [LinearOrderedField α] (scores2 : List (List α))
        (t2 : α) (i : ℕ),
        (i ∈ keptIndices scores2 t2 ↔
          i < scores2.length ∧
            t2 < (scores2.getD i []).getD (argmaxIdx (scores2.getD i [])) 0)
      ∧ ((scores2.getD i []).getD (argmaxIdx (scores2.getD i [])) 0 = t2 →
          i ∉ keptIndices scores2 t2))
  ∧ match_points (α := ℚ) [[0, 0, 0]] [[0, 0, 0]] [[1/2]] (1/2) none
      = some ([], []) := by
  constructor
  · intro α _ scores2 t2 i
    refine ⟨mem_keptIndices, ?_⟩
    intro heq hmem
    exact absurd (heq ▸ (mem_keptIndices.mp hmem).2) (lt_irrefl t2)
  · norm_num [match_points, npMax, gated, keptIndices, argmaxIdx,
      List.filter]

/-- Witness for C5 at the spec's concrete boundary instance. -/
theorem match_points_strict_threshold_witness :
    0 ∉ keptIndices (α := ℚ) [[1/2]] (1/2) ∧
      match_points (α := ℚ) [[0, 0, 0]] [[0, 0, 0]] [[1/2]] (1/2) none
        = some ([], []) :=
  ⟨(match_points_strict_threshold.1 ℚ [[1/2]] (1/2) 0).2
      (by norm_num [argmaxIdx]),
    match_points_strict_threshold.2⟩

/-- Claim C6 (confirmed): the two returned sequences have equal length,
that length is at most `len(a_pos)`, and the output is indexed by a
duplicate-free list of A-row indices (each A-point contributes at most
one pair); the concrete conjunct shows a B-point may be selected twice
(no injectivity on the B side). -/
theorem match_points_cardinality :
    (∀ (α : Type) [LinearOrderedField α]
        (aPos bPos scores : List (List α)) (th : α) (d? : Option α)
        (as bs : List (List α)),
        scores.length = aPos.length →
        match_points aPos bPos scores th d? = some (as, bs) →
        as.length = bs.length ∧ as.length ≤ aPos.length ∧
          ∃ ki : List ℕ, ki.Nodup ∧ (∀ n ∈ ki, n < aPos.length) ∧
            as = ki.map (fun i => (aPos.getD i []).take 3))
  ∧ match_points (α := ℚ) [[0, 0, 0], [1, 1, 1]] [[2, 2, 2]]
      [[1], [1]] 0 none
      = some ([[0, 0, 0], [1, 1, 1]], [[2, 2, 2], [2, 2, 2]]) := by
  constructor
  · intro α _ aPos bPos scores th d? as bs hlen h
    cases hm : npMax scores with
    | none =>
      unfold match_points at h
      rw [hm] at h
      exact absurd h (by simp)
    | some m =>
      rw [match_points_eq_some hm] at h
      simp only [Option.some.injEq, Prod.mk.injEq] at h
      obtain ⟨ha, hb⟩ := h
      subst ha
      subst hb
      have hg : (gated aPos bPos scores th d? (m + 1)).1.length =
          aPos.length := by
        rw [gated_fst_length]; exact hlen
      refine ⟨by simp, ?_, ?_⟩
      · calc (List.map _ (keptIndices _ _)).length
            = (keptIndices (gated aPos bPos scores th d? (m + 1)).1
                (gated aPos bPos scores th d? (m + 1)).2).length := by simp
          _ ≤ (gated aPos bPos scores th d? (m + 1)).1.length :=
              keptIndices_length_le _ _
          _ = aPos.length := hg
      · refine ⟨keptIndices (gated aPos bPos scores th d? (m + 1)).1
            (gated aPos bPos scores th d? (m + 1)).2,
          keptIndices_nodup _ _, ?_, rfl⟩
        intro n hn
        exact hg ▸ (mem_keptIndices.mp hn).1
  · norm_num [match_points, npMax, gated, keptIndices, argmaxIdx,
      List.filter, List.range_succ]

/-- Witness for C6's general part at a concrete input. -/
theorem match_points_cardinality_witness :
    ([[0, 0, 0], [1, 1, 1]] : List (List ℚ)).length = 2 ∧
      (([[0, 0, 0], [1, 1, 1]] : List (List ℚ)).length =
          ([[2, 2, 2], [2, 2, 2]] : List (List ℚ)).length ∧
        ([[0, 0, 0], [1, 1, 1]] : List (List ℚ)).length ≤
          ([[0, 0, 0], [1, 1, 1]] : List (List ℚ)).length ∧
        ∃ ki : List ℕ, ki.Nodup ∧
          (∀ n ∈ ki, n < ([[0, 0, 0], [1, 1, 1]] : List (List ℚ)).length) ∧
          ([[0, 0, 0], [1, 1, 1]] : List (List ℚ)) =
            ki.map (fun i =>
              (([[0, 0, 0], [1, 1, 1]] : List (List ℚ)).getD i
                []).take 3)) :=
  ⟨by norm_num,
    match_points_cardinality.1 ℚ [[0, 0, 0], [1, 1, 1]] [[2, 2, 2]]
      [[1], [1]] 0 none [[0, 0, 0], [1, 1, 1]] [[2, 2, 2], [2, 2, 2]]
      (by norm_num) match_points_cardinality.2⟩

/-- Claim C9 (confirmed, implicit behavior): `match_points` returns
`a_pos[keeps, :3]` and `b_pos[best_indcs[keeps], :3]`, so columns beyond
index 2 of the input rows (e.g. the intensity column of the `Nx4`
output of `blob_detection`) are silently dropped from both outputs:
every output row is the 3-element prefix of some input row. -/
theorem match_points_drops_extra_columns :
    ∀ (α : Type) [LinearOrderedField α]
      (aPos bPos scores : List (List α)) (th : α) (d? : Option α)
      (as bs : List (List α)),
      scores.length = aPos.length →
      (∀ r ∈ scores, r.length = bPos.length) →
      match_points aPos bPos scores th d? = some (as, bs) →
      (∀ r ∈ as, ∃ a ∈ aPos, r = a.take 3) ∧
        (∀ r ∈ bs, ∃ b ∈ bPos, r = b.take 3) := by
  intro α _ aPos bPos scores th d? as bs hlen hcols h
  cases hm : npMax scores with
  | none =>
    unfold match_points at h
    rw [hm] at h
    exact absurd h (by simp)
  | some m =>
    rw [match_points_eq_some hm] at h
    simp only [Option.some.injEq, Prod.mk.injEq] at h
    obtain ⟨ha, hb⟩ := h
    subst ha
    subst hb
    have hglen : (gated aPos bPos scores th d? (m + 1)).1.length =
        scores.length := gated_fst_length _ _ _ _ _ _
    have hbpos : 0 < bPos.length := by
      rcases npMax_eq_some_pos_row hm with ⟨r, hr, hrpos⟩
      exact (hcols r hr) ▸ hrpos
    constructor
    · intro r hr
      rcases List.mem_map.mp hr with ⟨i, hi, hri⟩
      have hilt : i < aPos.length := by
        have := (mem_keptIndices.mp hi).1
        rw [hglen, hlen] at this
        exact this
      exact ⟨aPos.getD i [], getD_mem [] hilt, hri.symm⟩
    · intro r hr
      rcases List.mem_map.mp hr with ⟨i, hi, hri⟩
      have hilt : i < scores.length := by
        have := (mem_keptIndices.mp hi).1
        rw [hglen] at this
        exact this
      have hrowlen :
          ((gated aPos bPos scores th d? (m + 1)).1.getD i []).length =
            bPos.length := by
        rw [gated_fst_row_length _ _ _ _ _ _ hilt]
        exact hcols _ (getD_mem [] hilt)
      have hargmax :
          argmaxIdx ((gated aPos bPos scores th d? (m + 1)).1.getD i []) <
            bPos.length := by
        rw [← hrowlen]
        apply argmaxIdx_lt
        intro hnil
        rw [hnil] at hrowlen
        exact absurd (hrowlen ▸ hbpos) (by simp)
      exact ⟨bPos.getD _ [], getD_mem [] hargmax, hri.symm⟩

/-- Witness for C9 on 4-column rows: the intensity column is dropped. -/
theorem match_points_drops_extra_columns_witness :
    (∀ r ∈ ([[1, 2, 3]] : List (List ℚ)),
        ∃ a ∈ ([[1, 2, 3, 4]] : List (List ℚ)), r = a.take 3) ∧
      (∀ r ∈ ([[5, 6, 7]] : List (List ℚ)),
        ∃ b ∈ ([[5, 6, 7, 8]] : List (List ℚ)), r = b.take 3) :=
  match_points_drops_extra_columns ℚ [[1, 2, 3, 4]] [[5, 6, 7, 8]]
    [[1]] 0 none [[1, 2, 3]] [[5, 6, 7]] (by norm_num) (by norm_num)
    (by norm_num [match_points, npMax, gated, keptIndices, argmaxIdx,
      List.filter])

/-- Claim C10 (confirmed, implicit behavior): when the score matrix is
empty (`a_pos` or `b_pos` empty), `np.max(scores)` is taken over an
empty array and raises (modelled by `none`); no pair of empty matched
sequences is returned. -/
theorem match_points_empty_scores_error :
    ∀ (α : Type) [LinearOrderedField α]
      (aPos bPos scores : List (List α)) (th : α) (d? : Option α),
      scores.length = aPos.length →
      (∀ r ∈ scores, r.length = bPos.length) →
      (aPos = [] ∨ bPos = []) →
      match_points aPos bPos scores th d? = none := by
  intro α _ aPos bPos scores th d? hlen hcols hempty
  have hflat : scores.flatten = [] := by
    rcases hempty with ha | hb
    · have : scores = [] := by
        apply List.eq_nil_of_length_eq_zero
        rw [hlen, ha]
        rfl
      rw [this]
      rfl
    · apply List.flatten_eq_nil_iff.mpr
      intro r hr
      apply List.eq_nil_of_length_eq_zero
      rw [hcols r hr, hb]
      rfl
  have hnp : npMax scores = none := by
    unfold npMax
    rw [hflat]
  unfold match_points
  rw [hnp]

/-- Witness for C10 with an empty `a_pos`. -/
theorem match_points_empty_scores_error_witness :
    match_points (α := ℚ) [] [[0, 0, 0]] [] 0 none = none :=
  match_points_empty_scores_error ℚ [] [[0, 0, 0]] [] 0 none rfl
    (by simp) (Or.inl rfl)

/-! ## Correlation machinery (`_stats`, `pairwise_correlation`)

Neighborhoods are numpy nd-arrays: a shape plus a C-order flat buffer,
so `a.flatten()` is the buffer itself.  Exact real arithmetic stands in
for `float64`; the special values `nan`/`±inf` that numpy division can
produce (and that the source scrubs with `corr[np.isnan(corr)] = 0`)
are modelled explicitly by the wrapper type `RF`. -/

/-- A numpy `float64` result: a finite real, `±inf`, or `nan`. -/
inductive RF where
  | fin (x : ℝ)
  | pinf
  | ninf
  | nan

open Classical in
/-- numpy division on `float64` values.  Signed zero is collapsed to
`0`: the pipeline only ever divides by standard deviations and a
length, which are `≥ 0`, so `-0.0` denominators never occur. -/
noncomputable def RF.div : RF → RF → RF
  | RF.nan, _ => RF.nan
  | _, RF.nan => RF.nan
  | RF.fin x, RF.fin y =>
    if y = 0 then
      if x = 0 then RF.nan else if 0 < x then RF.pinf else RF.ninf
    else RF.fin (x / y)
  | RF.pinf, RF.fin y => if 0 ≤ y then RF.pinf else RF.ninf
  | RF.ninf, RF.fin y => if 0 ≤ y then RF.ninf else RF.pinf
  | RF.fin _, RF.pinf => RF.fin 0
  | RF.fin _, RF.ninf => RF.fin 0
  | RF.pinf, RF.pinf => RF.nan
  | RF.pinf, RF.ninf => RF.nan
  | RF.ninf, RF.pinf => RF.nan
  | RF.ninf, RF.ninf => RF.nan

/-- The scrub `corr[np.isnan(corr)] = 0` applied entrywise. -/
def replaceNan : RF → RF
  | RF.nan => RF.fin 0
  | x => x

/-- A numpy nd-array: shape plus C-order flat data buffer. -/
structure NDArray where
  shape : List ℕ
  data : List ℝ

instance : Inhabited NDArray := ⟨⟨[], []⟩⟩

/-- `a.flatten()`: the C-order buffer. -/
def flattenNd (a : NDArray) : List ℝ := a.data

/-- Errors surfaced by `pairwise_correlation`: `inhomogeneous` models
the `ValueError` of `np.array` on rows of differing lengths — its
message reports only the detected homogeneous prefix shape, `(N,)`
followed by "+ inhomogeneous part", and in particular names none of the
individual row lengths; `statsAxis` the `AxisError` of
`np.mean(arr, axis=1)` on a non-2-D array (the shape is printed and the
exception re-raised by `_stats`); `dimMismatch` the `ValueError` of
`np.matmul`, whose message does report both mismatched inner
dimensions. -/
inductive CorrErr where
  | inhomogeneous (shape : List ℕ)
  | statsAxis (shape : List ℕ)
  | dimMismatch (la lb : ℕ)

/-- The dimensions an error's surfaced message reports. -/
def errReported : CorrErr → List ℕ
  | CorrErr.inhomogeneous s => s
  | CorrErr.statsAxis s => s
  | CorrErr.dimMismatch la lb => [la, lb]

/-- `np.mean` of a vector (junk value `0` on the empty list, where
numpy would give `nan`; see `pairwise_correlation` for why this agrees
with the final output). -/
noncomputable def listMean (v : List ℝ) : ℝ := v.sum / v.length

/-- The standard deviation exactly as `_stats` computes it:
`sqrt(mean(x²) - mean(x)²)`. -/
noncomputable def codeStd (v : List ℝ) : ℝ :=
  Real.sqrt (listMean (v.map (fun x => x ^ 2)) - listMean v ^ 2)

/-- `np.array(list_of_rows)`: a 2-D array when the rows are
homogeneous, otherwise the inhomogeneous-shape `ValueError`, which
reports only the detected outer shape `(N,)`, not the row lengths. -/
def toMatrix (rows : List (List ℝ)) : Except CorrErr (List (List ℝ)) :=
  if rows.all (fun r => r.length == (rows.headD []).length) then
    Except.ok rows
  else
    Except.error (CorrErr.inhomogeneous [rows.length])

/-- `_stats(arr)`: per-row mean and standard deviation; on an empty row
list the array is 1-D (shape `(0,)`) and `np.mean(arr, axis=1)` raises,
which `_stats` logs (with the shape) and re-raises. -/
noncomputable def stats (rows : List (List ℝ)) :
    Except CorrErr (List ℝ × List ℝ) :=
  if rows.isEmpty then Except.error (CorrErr.statsAxis [0])
  else Except.ok (rows.map listMean, rows.map codeStd)

/-- Subtracting the row's own mean: `a_con - a_mean[..., None]`. -/
noncomputable def centerRow (v : List ℝ) : List ℝ :=
  v.map (fun x => x - listMean v)

/-- Dot product of two equally long vectors. -/
def dotList (v w : List ℝ) : ℝ :=
  ((v.zip w).map (fun p => p.1 * p.2)).sum

/-- `np.matmul(X, Y.T)` on 2-D arrays: errors when the inner dimensions
disagree. -/
def matmulT (X Y : List (List ℝ)) : Except CorrErr (List (List ℝ)) :=
  if (X.headD []).length == (Y.headD []).length then
    Except.ok (X.map (fun x => Y.map (fun y => dotList x y)))
  else
    Except.error
      (CorrErr.dimMismatch (X.headD []).length (Y.headD []).length)

/-- `pairwise_correlation(A, B)`, line for line: flatten and stack both
neighborhood lists, take per-row stats, center, `matmul` with the
transpose, divide by the row stds, the column stds and the vector
length, and scrub `nan`s to `0`.

On the empty vector `listMean` returns junk `0` where numpy computes
`nan` stds; in that case the matmul numerator is the empty sum `0` on
both sides and the final scrubbed entry is `0` either way, so the junk
value is observationally faithful. -/
noncomputable def pairwise_correlation (A B : List NDArray) :
    Except CorrErr (List (List RF)) := do
  let aCon ← toMatrix (A.map flattenNd)
  let bCon ← toMatrix (B.map flattenNd)
  let aStats ← stats aCon
  let bStats ← stats bCon
  let aCen := aCon.map centerRow
  let bCen := bCon.map centerRow
  let raw ← matmulT aCen bCen
  let L := (aCen.headD []).length
  let corr := (raw.zip aStats.2).map (fun p =>
    (p.1.zip bStats.2).map (fun q =>
      RF.div (RF.div (RF.div (RF.fin q.1) (RF.fin p.2)) (RF.fin q.2))
        (RF.fin (L : ℝ))))
  return corr.map (fun row => row.map replaceNan)

/-! ### Specification-side definitions (from the spec's words, for the
refinement claim C2) -/

/-- Population standard deviation in its textbook form: square root of
the mean squared deviation from the mean. -/
noncomputable def popStddev (v : List ℝ) : ℝ :=
  Real.sqrt (listMean (v.map (fun x => (x - listMean v) ^ 2)))

/-- Dot product of the two mean-centered vectors. -/
noncomputable def centeredDot (v w : List ℝ) : ℝ :=
  dotList (centerRow v) (centerRow w)

/-- The Pearson correlation coefficient as the spec words it: the dot
product of the two mean-centered vectors divided by `stddev_A`, by
`stddev_B`, and by the vector length. -/
noncomputable def pearsonCorr (v w : List ℝ) : ℝ :=
  centeredDot v w / popStddev v / popStddev w / v.length

/-- One un-scrubbed entry of the correlation matrix as the code
computes it. -/
noncomputable def entryChain (v w : List ℝ) (L : ℕ) : RF :=
  RF.div
    (RF.div (RF.div (RF.fin (centeredDot v w)) (RF.fin (codeStd v)))
      (RF.fin (codeStd w)))
    (RF.fin (L : ℝ))

/-- A perfectly flat (zero-variance) neighborhood vector. -/
def isConstant (v : List ℝ) : Prop := ∀ x ∈ v, x = v.headD 0

/-! ### Arithmetic helper lemmas -/

theorem sum_map_sq_sub (v : List ℝ) (c : ℝ) :
    (v.map (fun x => (x - c) ^ 2)).sum =
      (v.map (fun x => x ^ 2)).sum - 2 * c * v.sum + v.length * c ^ 2 := by
  induction v with
  | nil => simp
  | cons a t ih =>
    simp only [List.map_cons, List.sum_cons, List.length_cons, ih]
    push_cast
    ring

theorem listMean_center_sq (v : List ℝ) :
    listMean (v.map (fun x => (x - listMean v) ^ 2)) =
      listMean (v.map (fun x => x ^ 2)) - listMean v ^ 2 := by
  rcases v with _ | ⟨a, t⟩
  · simp [listMean]
  · have hn : (((a :: t).length : ℕ) : ℝ) ≠ 0 :=
      Nat.cast_ne_zero.mpr (Nat.succ_ne_zero _)
    unfold listMean
    rw [sum_map_sq_sub, List.length_map, List.length_map]
    field_simp
    ring

theorem codeStd_eq_popStddev (v : List ℝ) : codeStd v = popStddev v := by
  rw [codeStd, popStddev, listMean_center_sq]

theorem sum_eq_zero_mem (l : List ℝ) :
    (∀ x ∈ l, 0 ≤ x) → l.sum = 0 → ∀ x ∈ l, x = 0 := by
  induction l with
  | nil => intro _ _ x hx; simp at hx
  | cons a t ih =>
    intro h0 hs x hx
    have ha : 0 ≤ a := h0 a (List.mem_cons_self a t)
    have ht : 0 ≤ t.sum :=
      List.sum_nonneg fun y hy => h0 y (List.mem_cons_of_mem a hy)
    have hsum : a + t.sum = 0 := by simpa using hs
    rcases List.mem_cons.mp hx with rfl | hmem
    · linarith
    · exact ih (fun y hy => h0 y (List.mem_cons_of_mem a hy))
        (by linarith) x hmem

theorem sum_pos_mem (l : List ℝ) {x : ℝ} (hxpos : 0 < x) :
    (∀ y ∈ l, 0 ≤ y) → x ∈ l → 0 < l.sum := by
  induction l with
  | nil => intro _ hx; simp at hx
  | cons a t ih =>
    intro h0 hx
    have ht : 0 ≤ t.sum :=
      List.sum_nonneg fun y hy => h0 y (List.mem_cons_of_mem a hy)
    have ha : 0 ≤ a := h0 a (List.mem_cons_self a t)
    rw [List.sum_cons]
    rcases List.mem_cons.mp hx with rfl | hmem
    · linarith
    · have := ih (fun y hy => h0 y (List.mem_cons_of_mem a hy)) hmem
      linarith

theorem dotList_zero_left (v w : List ℝ) (h : ∀ x ∈ v, x = 0) :
    dotList v w = 0 := by
  unfold dotList
  apply List.sum_eq_zero
  intro y hy
  rcases List.mem_map.mp hy with ⟨⟨p1, p2⟩, hp, hpy⟩
  rw [← hpy, h p1 (List.of_mem_zip hp).1, zero_mul]

theorem dotList_zero_right (v w : List ℝ) (h : ∀ x ∈ w, x = 0) :
    dotList v w = 0 := by
  unfold dotList
  apply List.sum_eq_zero
  intro y hy
  rcases List.mem_map.mp hy with ⟨⟨p1, p2⟩, hp, hpy⟩
  rw [← hpy, h p2 (List.of_mem_zip hp).2, mul_zero]

theorem dotList_self (v : List ℝ) :
    dotList v v = (v.map (fun x => x ^ 2)).sum := by
  unfold dotList
  induction v with
  | nil => rfl
  | cons a t ih =>
    simp only [List.zip_cons_cons, List.map_cons, List.sum_cons, ih]
    rw [pow_two]

theorem sum_of_constant (l : List ℝ) (c : ℝ) :
    (∀ x ∈ l, x = c) → l.sum = l.length * c := by
  induction l with
  | nil => intro _; simp
  | cons a t ih =>
    intro h
    have ha : a = c := h a (List.mem_cons_self a t)
    have ht := ih fun x hx => h x (List.mem_cons_of_mem a hx)
    simp only [List.sum_cons, List.length_cons, ht, ha]
    push_cast
    ring

theorem listMean_of_constant (l : List ℝ) (c : ℝ) (hne : l ≠ [])
    (h : ∀ x ∈ l, x = c) : listMean l = c := by
  unfold listMean
  rw [sum_of_constant l c h]
  have hn : ((l.length : ℕ) : ℝ) ≠ 0 :=
    Nat.cast_ne_zero.mpr (Nat.pos_iff_ne_zero.mp (List.length_pos.mpr hne))
  field_simp

theorem centerRow_of_isConstant {v : List ℝ} (h : isConstant v) :
    ∀ x ∈ centerRow v, x = 0 := by
  intro x hx
  rcases List.mem_map.mp hx with ⟨y, hy, hxy⟩
  have hne : v ≠ [] := List.ne_nil_of_mem hy
  have hmean : listMean v = v.headD 0 := listMean_of_constant v _ hne h
  rw [← hxy, h y hy, hmean, sub_self]

theorem variance_nonneg (v : List ℝ) :
    0 ≤ listMean (v.map (fun x => x ^ 2)) - listMean v ^ 2 := by
  rw [← listMean_center_sq]
  unfold listMean
  apply div_nonneg
  · apply List.sum_nonneg
    intro x hx
    rcases List.mem_map.mp hx with ⟨y, _, rfl⟩
    positivity
  · positivity

theorem centered_eq_zero_of_codeStd_eq_zero {v : List ℝ}
    (h : codeStd v = 0) : ∀ x ∈ centerRow v, x = 0 := by
  have hvar : listMean (v.map (fun x => (x - listMean v) ^ 2)) = 0 := by
    rw [listMean_center_sq]
    exact le_antisymm (Real.sqrt_eq_zero'.mp h) (variance_nonneg v)
  intro x hx
  rcases List.mem_map.mp hx with ⟨y, hy, hxy⟩
  have hlen : (0 : ℝ) < v.length := by
    have := List.length_pos.mpr (List.ne_nil_of_mem hy)
    exact_mod_cast this
  have hsum : (v.map (fun x => (x - listMean v) ^ 2)).sum = 0 := by
    unfold listMean at hvar
    rcases div_eq_zero_iff.mp hvar with h1 | h1
    · exact h1
    · rw [List.length_map] at h1
      exact absurd h1 (by positivity)
  have hterm :=
    sum_eq_zero_mem _ (by
        intro z hz
        rcases List.mem_map.mp hz with ⟨y', _, rfl⟩
        positivity)
      hsum _ (List.mem_map_of_mem _ hy)
  have : y - listMean v = 0 := (pow_eq_zero_iff two_ne_zero).mp hterm
  rw [← hxy]
  exact this

theorem listMean_eq_zero {l : List ℝ} (h : l.sum = 0) : listMean l = 0 := by
  unfold listMean
  rw [h]
  simp

theorem codeStd_of_isConstant {v : List ℝ} (h : isConstant v) :
    codeStd v = 0 := by
  rw [codeStd_eq_popStddev]
  unfold popStddev
  have hz : (v.map (fun x => (x - listMean v) ^ 2)).sum = 0 := by
    apply List.sum_eq_zero
    intro x hx
    rcases List.mem_map.mp hx with ⟨y, hy, rfl⟩
    have := centerRow_of_isConstant h (y - listMean v)
      (List.mem_map_of_mem _ hy)
    rw [this]
    norm_num
  rw [listMean_eq_zero hz, Real.sqrt_zero]

theorem codeStd_nil : codeStd [] = 0 := by
  simp [codeStd, listMean]

/-! ### `RF` computation lemmas -/

theorem RF.div_nan_left (r : RF) : RF.div RF.nan r = RF.nan := by
  cases r <;> rfl

theorem RF.div_nan_right (r : RF) : RF.div r RF.nan = RF.nan := by
  cases r <;> rfl

theorem RF.div_fin_fin_of_ne {x y : ℝ} (hy : y ≠ 0) :
    RF.div (RF.fin x) (RF.fin y) = RF.fin (x / y) := by
  simp only [RF.div]
  rw [if_neg hy]

theorem RF.div_zero_zero : RF.div (RF.fin 0) (RF.fin 0) = RF.nan := by
  simp [RF.div]

theorem replaceNan_ne_nan (r : RF) : replaceNan r ≠ RF.nan := by
  cases r <;> simp [replaceNan]

theorem centerRow_length (v : List ℝ) : (centerRow v).length = v.length := by
  simp [centerRow]

theorem exceptBind_ok {ε α β : Type} (a : α) (f : α → Except ε β) :
    (Except.ok a >>= f : Except ε β) = f a := rfl

theorem exceptBind_error {ε α β : Type} (e : ε) (f : α → Except ε β) :
    (Except.error e >>= f : Except ε β) = Except.error e := rfl

/-- On homogeneous nonempty inputs, `pairwise_correlation` succeeds and
every entry is the scrubbed division chain on the two flattened rows. -/
theorem pairwise_correlation_ok (A B : List NDArray) (L : ℕ)
    (hA : ∀ a ∈ A, a.data.length = L) (hB : ∀ b ∈ B, b.data.length = L)
    (hAne : A ≠ []) (hBne : B ≠ []) :
    pairwise_correlation A B =
      Except.ok (A.map (fun a => B.map (fun b =>
        replaceNan (entryChain a.data b.data L)))) := by
  rcases List.exists_cons_of_ne_nil hAne with ⟨a0, A', rfl⟩
  rcases List.exists_cons_of_ne_nil hBne with ⟨b0, B', rfl⟩
  have hA0 : a0.data.length = L := hA a0 (List.mem_cons_self a0 A')
  have hB0 : b0.data.length = L := hB b0 (List.mem_cons_self b0 B')
  have h1 : toMatrix ((a0 :: A').map flattenNd) =
      Except.ok ((a0 :: A').map flattenNd) := by
    unfold toMatrix
    rw [if_pos]
    rw [List.all_eq_true]
    intro r hr
    rcases List.mem_map.mp hr with ⟨a, ha, rfl⟩
    apply beq_iff_eq.mpr
    show (flattenNd a).length = (((a0 :: A').map flattenNd).headD []).length
    simp only [List.map_cons, List.headD_cons]
    show a.data.length = a0.data.length
    rw [hA a ha, hA0]
  have h2 : toMatrix ((b0 :: B').map flattenNd) =
      Except.ok ((b0 :: B').map flattenNd) := by
    unfold toMatrix
    rw [if_pos]
    rw [List.all_eq_true]
    intro r hr
    rcases List.mem_map.mp hr with ⟨b, hb, rfl⟩
    apply beq_iff_eq.mpr
    show (flattenNd b).length = (((b0 :: B').map flattenNd).headD []).length
    simp only [List.map_cons, List.headD_cons]
    show b.data.length = b0.data.length
    rw [hB b hb, hB0]
  have h3 : stats ((a0 :: A').map flattenNd) =
      Except.ok (((a0 :: A').map flattenNd).map listMean,
        ((a0 :: A').map flattenNd).map codeStd) := by
    simp [stats]
  have h4 : stats ((b0 :: B').map flattenNd) =
      Except.ok (((b0 :: B').map flattenNd).map listMean,
        ((b0 :: B').map flattenNd).map codeStd) := by
    simp [stats]
  have h5 : matmulT (((a0 :: A').map flattenNd).map centerRow)
      (((b0 :: B').map flattenNd).map centerRow) =
      Except.ok ((((a0 :: A').map flattenNd).map centerRow).map
        (fun x => (((b0 :: B').map flattenNd).map centerRow).map
          (fun y => dotList x y))) := by
    unfold matmulT
    rw [if_pos]
    apply beq_iff_eq.mpr
    simp only [List.map_cons, List.headD_cons, centerRow_length]
    show a0.data.length = b0.data.length
    rw [hA0, hB0]
  unfold pairwise_correlation
  simp only [h1, h2, h3, h4, h5, exceptBind_ok]
  show Except.ok _ = _
  apply congrArg
  have hL : (((((a0 :: A').map flattenNd).map centerRow).headD []).length)
      = L := by
    simp only [List.map_cons, List.headD_cons, centerRow_length]
    exact hA0
  rw [hL]
  simp only [List.map_map, List.zip_map']
  apply List.map_congr_left
  intro a _
  simp only [Function.comp, List.zip_map', List.map_map]
  apply List.map_congr_left
  intro b _
  simp only [Function.comp, entryChain, centeredDot, flattenNd]

theorem getD_map_of_lt {β γ : Type} (f : β → γ) {l : List β} {i : ℕ}
    (hi : i < l.length) (d : γ) (d' : β) :
    (l.map f).getD i d = f (l.getD i d') := by
  rw [List.getD_eq_getElem?_getD, List.getD_eq_getElem?_getD,
    List.getElem?_map, List.getElem?_eq_getElem hi]
  rfl

/-- A scrubbed entry whose left vector has length `L` is exactly the
spec-side Pearson coefficient (with junk-division conventions agreeing
in the degenerate zero-variance cases). -/
theorem replaceNan_entryChain (v w : List ℝ) {L : ℕ} (hv : v.length = L) :
    replaceNan (entryChain v w L) = RF.fin (pearsonCorr v w) := by
  by_cases hsv : codeStd v = 0
  · have hdot : centeredDot v w = 0 := by
      unfold centeredDot
      exact dotList_zero_left _ _ (centered_eq_zero_of_codeStd_eq_zero hsv)
    unfold entryChain pearsonCorr
    rw [hdot, hsv, RF.div_zero_zero, RF.div_nan_left, RF.div_nan_left]
    simp [replaceNan, zero_div]
  · by_cases hsw : codeStd w = 0
    · have hdot : centeredDot v w = 0 := by
        unfold centeredDot
        exact dotList_zero_right _ _
          (centered_eq_zero_of_codeStd_eq_zero hsw)
      unfold entryChain pearsonCorr
      rw [hdot, hsw, RF.div_fin_fin_of_ne hsv, zero_div, RF.div_zero_zero,
        RF.div_nan_left]
      simp [replaceNan, zero_div]
    · have hvne : v ≠ [] := by
        intro hnil
        rw [hnil] at hsv
        exact hsv codeStd_nil
      have hLne : ((L : ℕ) : ℝ) ≠ 0 := by
        rw [← hv]
        exact Nat.cast_ne_zero.mpr
          (Nat.pos_iff_ne_zero.mp (List.length_pos.mpr hvne))
      unfold entryChain pearsonCorr
      rw [RF.div_fin_fin_of_ne hsv, RF.div_fin_fin_of_ne hsw,
        RF.div_fin_fin_of_ne hLne]
      rw [codeStd_eq_popStddev v, codeStd_eq_popStddev w, ← hv]
      rfl

theorem replaceNan_entryChain_of_left_flat {v : List ℝ} (w : List ℝ)
    (L : ℕ) (h : isConstant v) :
    replaceNan (entryChain v w L) = RF.fin 0 := by
  have hdot : centeredDot v w = 0 := by
    unfold centeredDot
    exact dotList_zero_left _ _ (centerRow_of_isConstant h)
  have hsv := codeStd_of_isConstant h
  unfold entryChain
  rw [hdot, hsv, RF.div_zero_zero, RF.div_nan_left, RF.div_nan_left]
  rfl

theorem replaceNan_entryChain_of_right_flat (v : List ℝ) {w : List ℝ}
    (L : ℕ) (h : isConstant w) :
    replaceNan (entryChain v w L) = RF.fin 0 := by
  have hdot : centeredDot v w = 0 := by
    unfold centeredDot
    exact dotList_zero_right _ _ (centerRow_of_isConstant h)
  have hsw := codeStd_of_isConstant h
  unfold entryChain
  by_cases hsv : codeStd v = 0
  · rw [hdot, hsv, hsw, RF.div_zero_zero, RF.div_nan_left, RF.div_nan_left]
    rfl
  · rw [hdot, hsw, RF.div_fin_fin_of_ne hsv, zero_div, RF.div_zero_zero,
      RF.div_nan_left]
    rfl

theorem replaceNan_entryChain_self {v : List ℝ} (h : ¬ isConstant v) :
    replaceNan (entryChain v v v.length) = RF.fin 1 := by
  have hvne : v ≠ [] := by
    intro hnil
    apply h
    rw [hnil]
    intro x hx
    simp at hx
  have hn : (0 : ℝ) < v.length := by
    exact_mod_cast List.length_pos.mpr hvne
  have hLne : ((v.length : ℕ) : ℝ) ≠ 0 := ne_of_gt hn
  have hex : ∃ y ∈ v, y ≠ listMean v := by
    by_contra hall
    push_neg at hall
    apply h
    intro x hx
    have hhead : v.headD 0 = listMean v := by
      rcases List.exists_cons_of_ne_nil hvne with ⟨a, t, rfl⟩
      exact hall a (List.mem_cons_self a t)
    rw [hhead]
    exact hall x hx
  rcases hex with ⟨y, hy, hyne⟩
  have hdot : centeredDot v v = ((centerRow v).map (fun x => x ^ 2)).sum := by
    unfold centeredDot
    exact dotList_self _
  have hdotpos : 0 < centeredDot v v := by
    rw [hdot]
    apply sum_pos_mem _ (x := (y - listMean v) ^ 2)
    · have hne0 : y - listMean v ≠ 0 := sub_ne_zero.mpr hyne
      positivity
    · intro z hz
      rcases List.mem_map.mp hz with ⟨z', _, rfl⟩
      positivity
    · apply List.mem_map_of_mem
      unfold centerRow
      exact List.mem_map_of_mem _ hy
  have hstd : codeStd v = Real.sqrt (centeredDot v v / v.length) := by
    rw [codeStd_eq_popStddev]
    unfold popStddev
    congr 1
    unfold listMean
    rw [List.length_map, hdot]
    congr 1
    unfold centerRow
    rw [List.map_map]
    rfl
  have hstdpos : 0 < codeStd v := by
    rw [hstd]
    apply Real.sqrt_pos.mpr
    positivity
  have hstdsq : codeStd v ^ 2 = centeredDot v v / v.length := by
    rw [hstd]
    exact Real.sq_sqrt (by positivity)
  have hprod : codeStd v * (codeStd v * (v.length : ℝ)) = centeredDot v v := by
    calc codeStd v * (codeStd v * (v.length : ℝ))
        = codeStd v ^ 2 * (v.length : ℝ) := by ring
      _ = centeredDot v v / (v.length : ℝ) * (v.length : ℝ) := by
          rw [hstdsq]
      _ = centeredDot v v := div_mul_cancel₀ _ hLne
  unfold entryChain
  rw [RF.div_fin_fin_of_ne (ne_of_gt hstdpos),
    RF.div_fin_fin_of_ne (ne_of_gt hstdpos), RF.div_fin_fin_of_ne hLne]
  rw [div_div, div_div, hprod, div_self (ne_of_gt hdotpos)]
  rfl

/-! ## Claim theorems about `pairwise_correlation` -/

/-- Claim C2 (confirmed): for homogeneous neighborhood lists, entry
`(i, j)` of `pairwise_correlation(A, B)` equals the Pearson correlation
coefficient of flattened `A[i]` and flattened `B[j]`, computed with
per-vector mean and population standard deviation: the dot product of
the two mean-centered vectors divided by `stddev_A[i]`, by
`stddev_B[j]`, and by the vector length. -/
theorem pairwise_correlation_entry_eq_pearson :
    ∀ (A B : List NDArray) (L : ℕ) (C : List (List RF)) (i j : ℕ),
      (∀ a ∈ A, a.data.length = L) → (∀ b ∈ B, b.data.length = L) →
      A ≠ [] → B ≠ [] →
      pairwise_correlation A B = Except.ok C →
      i < A.length → j < B.length →
      (C.getD i []).getD j (RF.fin 0) =
        RF.fin (pearsonCorr (A.getD i default).data
          (B.getD j default).data) := by
  intro A B L C i j hA hB hAne hBne hok hi hj
  rw [pairwise_correlation_ok A B L hA hB hAne hBne] at hok
  injection hok with hok
  subst hok
  rw [getD_map_of_lt _ hi [] default, getD_map_of_lt _ hj (RF.fin 0) default]
  exact replaceNan_entryChain _ _ (hA _ (getD_mem default hi))

/-- Witness for C2 at a pair of concrete flat neighborhoods (where the
`0/0 = nan` path is scrubbed to `0`, and the junk-valued spec-side
Pearson formula is also `0`). -/
theorem pairwise_correlation_entry_eq_pearson_witness :
    ((([[RF.fin (pearsonCorr [5, 5] [0, 2])]] : List (List RF)).getD 0
        []).getD 0 (RF.fin 0)) =
      RF.fin (pearsonCorr
        (([⟨[2], [5, 5]⟩] : List NDArray).getD 0 default).data
        (([⟨[2], [0, 2]⟩] : List NDArray).getD 0 default).data) :=
  pairwise_correlation_entry_eq_pearson [⟨[2], [5, 5]⟩] [⟨[2], [0, 2]⟩]
    2 [[RF.fin (pearsonCorr [5, 5] [0, 2])]] 0 0 (by simp) (by simp)
    (by simp) (by simp)
    (by
      rw [pairwise_correlation_ok [⟨[2], [5, 5]⟩] [⟨[2], [0, 2]⟩] 2
        (by simp) (by simp) (by simp) (by simp)]
      simp only [List.map_cons, List.map_nil]
      rw [replaceNan_entryChain ([5, 5] : List ℝ) ([0, 2] : List ℝ) (L := 2) rfl])
    (by norm_num) (by norm_num)

/-- Claim C3 (confirmed): a zero-variance (perfectly flat) neighborhood
yields correlation exactly `0` against every partner — including
another flat one (covered by the two symmetric conjuncts holding
simultaneously) — and no entry of the returned matrix is `nan` (the
`corr[np.isnan(corr)] = 0` scrub). -/
theorem pairwise_correlation_flat_zero :
    ∀ (A B : List NDArray) (L : ℕ) (C : List (List RF)),
      (∀ a ∈ A, a.data.length = L) → (∀ b ∈ B, b.data.length = L) →
      A ≠ [] → B ≠ [] →
      pairwise_correlation A B = Except.ok C →
      (∀ i < A.length, isConstant (A.getD i default).data →
        ∀ j < B.length, (C.getD i []).getD j (RF.fin 0) = RF.fin 0) ∧
      (∀ j < B.length, isConstant (B.getD j default).data →
        ∀ i < A.length, (C.getD i []).getD j (RF.fin 0) = RF.fin 0) ∧
      (∀ row ∈ C, ∀ e ∈ row, e ≠ RF.nan) := by
  intro A B L C hA hB hAne hBne hok
  rw [pairwise_correlation_ok A B L hA hB hAne hBne] at hok
  injection hok with hok
  subst hok
  refine ⟨?_, ?_, ?_⟩
  · intro i hi hconst j hj
    rw [getD_map_of_lt _ hi [] default,
      getD_map_of_lt _ hj (RF.fin 0) default]
    exact replaceNan_entryChain_of_left_flat _ _ hconst
  · intro j hj hconst i hi
    rw [getD_map_of_lt _ hi [] default,
      getD_map_of_lt _ hj (RF.fin 0) default]
    exact replaceNan_entryChain_of_right_flat _ _ hconst
  · intro row hrow e he
    rcases List.mem_map.mp hrow with ⟨a, _, rfl⟩
    rcases List.mem_map.mp he with ⟨b, _, rfl⟩
    exact replaceNan_ne_nan _

/-- Witness for C3 with a flat neighborhood `[5, 5]` against `[0, 2]`. -/
theorem pairwise_correlation_flat_zero_witness :
    (∀ i < ([⟨[2], [5, 5]⟩] : List NDArray).length,
      isConstant (([⟨[2], [5, 5]⟩] : List NDArray).getD i default).data →
      ∀ j < ([⟨[2], [0, 2]⟩] : List NDArray).length,
        (([[RF.fin (pearsonCorr [5, 5] [0, 2])]].getD i []).getD j
          (RF.fin 0)) = RF.fin 0) ∧
    (∀ j < ([⟨[2], [0, 2]⟩] : List NDArray).length,
      isConstant (([⟨[2], [0, 2]⟩] : List NDArray).getD j default).data →
      ∀ i < ([⟨[2], [5, 5]⟩] : List NDArray).length,
        (([[RF.fin (pearsonCorr [5, 5] [0, 2])]].getD i []).getD j
          (RF.fin 0)) = RF.fin 0) ∧
    (∀ row ∈ ([[RF.fin (pearsonCorr [5, 5] [0, 2])]] : List (List RF)),
      ∀ e ∈ row, e ≠ RF.nan) :=
  pairwise_correlation_flat_zero [⟨[2], [5, 5]⟩] [⟨[2], [0, 2]⟩] 2
    [[RF.fin (pearsonCorr [5, 5] [0, 2])]] (by simp) (by simp) (by simp)
    (by simp)
    (by
      rw [pairwise_correlation_ok [⟨[2], [5, 5]⟩] [⟨[2], [0, 2]⟩] 2
        (by simp) (by simp) (by simp) (by simp)]
      simp only [List.map_cons, List.map_nil]
      rw [replaceNan_entryChain ([5, 5] : List ℝ) ([0, 2] : List ℝ) (L := 2) rfl])

/-- Claim C4 (confirmed): correlating a neighborhood with an identical
copy of itself yields exactly `1` when it is not constant, and `0`
when it is constant (zero variance). -/
theorem pairwise_correlation_self (x : NDArray) :
    (isConstant x.data →
        pairwise_correlation [x] [x] = Except.ok [[RF.fin 0]]) ∧
      (¬ isConstant x.data →
        pairwise_correlation [x] [x] = Except.ok [[RF.fin 1]]) := by
  have hok := pairwise_correlation_ok [x] [x] x.data.length (by simp)
    (by simp) (by simp) (by simp)
  simp only [List.map_cons, List.map_nil] at hok
  constructor
  · intro hc
    rw [hok, replaceNan_entryChain_of_left_flat _ _ hc]
  · intro hc
    rw [hok, replaceNan_entryChain_self hc]

/-- Witness for C4 on the non-constant neighborhood `[0, 2]`. -/
theorem pairwise_correlation_self_witness :
    ¬ isConstant (([0, 2] : List ℝ)) ∧
      pairwise_correlation [⟨[2], [0, 2]⟩] [⟨[2], [0, 2]⟩] =
        Except.ok [[RF.fin 1]] := by
  have hnc : ¬ isConstant (([0, 2] : List ℝ)) := by
    intro hcon
    have := hcon 2 (by norm_num)
    norm_num at this
  exact ⟨hnc, (pairwise_correlation_self ⟨[2], [0, 2]⟩).2 hnc⟩

/-! ### Error-path lemmas for `pairwise_correlation` -/

theorem toMatrix_ok_of_all {rows : List (List ℝ)}
    (h : rows.all (fun r => r.length == (rows.headD []).length) = true) :
    toMatrix rows = Except.ok rows := by
  unfold toMatrix
  rw [if_pos h]

theorem toMatrix_error_of_not_all {rows : List (List ℝ)}
    (h : ¬ rows.all (fun r => r.length == (rows.headD []).length) = true) :
    toMatrix rows = Except.error (CorrErr.inhomogeneous [rows.length]) := by
  unfold toMatrix
  rw [if_neg h]

theorem stats_ok_of_ne_nil {rows : List (List ℝ)} (h : rows ≠ []) :
    stats rows = Except.ok (rows.map listMean, rows.map codeStd) := by
  unfold stats
  rw [if_neg]
  simp [List.isEmpty_iff, h]

theorem matmulT_error_of_ne {X Y : List (List ℝ)}
    (h : (X.headD []).length ≠ (Y.headD []).length) :
    matmulT X Y =
      Except.error
        (CorrErr.dimMismatch (X.headD []).length (Y.headD []).length) := by
  unfold matmulT
  rw [if_neg]
  intro hc
  exact h (beq_iff_eq.mp hc)

/-- Homogeneity of the flattened lengths implies the `np.array`
rectangularity check passes. -/
theorem all_check_of_hom {A : List NDArray}
    (h : ∀ a1 ∈ A, ∀ a2 ∈ A, a1.data.length = a2.data.length) :
    (A.map flattenNd).all
      (fun r => r.length == ((A.map flattenNd).headD []).length) = true := by
  rcases A with _ | ⟨a0, A'⟩
  · rfl
  · rw [List.all_eq_true]
    intro r hr
    rcases List.mem_map.mp hr with ⟨a, ha, rfl⟩
    apply beq_iff_eq.mpr
    show (flattenNd a).length = (((a0 :: A').map flattenNd).headD []).length
    simp only [List.map_cons, List.headD_cons]
    exact h a ha a0 (List.mem_cons_self a0 A')

/-- When both stacks pass the rectangularity check but a cross-list
mismatch exists, the pipeline reaches `np.matmul`, whose error reports
both mismatched inner dimensions. -/
theorem pc_rect_mismatch_error (A B : List NDArray) (u v : NDArray)
    (hu : u ∈ A ++ B) (hv : v ∈ A ++ B)
    (hne : u.data.length ≠ v.data.length)
    (hallA : (A.map flattenNd).all
      (fun r => r.length == ((A.map flattenNd).headD []).length) = true)
    (hallB : (B.map flattenNd).all
      (fun r => r.length == ((B.map flattenNd).headD []).length) = true) :
    ∃ la lb, pairwise_correlation A B =
        Except.error (CorrErr.dimMismatch la lb) ∧ la ≠ lb ∧
      (∃ a ∈ A, a.data.length = la) ∧ (∃ b ∈ B, b.data.length = lb) := by
  have hAeq : ∀ a ∈ A,
      a.data.length = ((A.map flattenNd).headD []).length := by
    intro a ha
    exact beq_iff_eq.mp
      (List.all_eq_true.mp hallA (flattenNd a) (List.mem_map_of_mem _ ha))
  have hBeq : ∀ b ∈ B,
      b.data.length = ((B.map flattenNd).headD []).length := by
    intro b hb
    exact beq_iff_eq.mp
      (List.all_eq_true.mp hallB (flattenNd b) (List.mem_map_of_mem _ hb))
  have hcross : (u ∈ A ∧ v ∈ B) ∨ (u ∈ B ∧ v ∈ A) := by
    rcases List.mem_append.mp hu with huA | huB
    · rcases List.mem_append.mp hv with hvA | hvB
      · exact absurd (by rw [hAeq u huA, hAeq v hvA]) hne
      · exact Or.inl ⟨huA, hvB⟩
    · rcases List.mem_append.mp hv with hvA | hvB
      · exact Or.inr ⟨huB, hvA⟩
      · exact absurd (by rw [hBeq u huB, hBeq v hvB]) hne
  have hAne : A ≠ [] := by
    rcases hcross with ⟨huA, _⟩ | ⟨_, hvA⟩
    · exact List.ne_nil_of_mem huA
    · exact List.ne_nil_of_mem hvA
  have hBne : B ≠ [] := by
    rcases hcross with ⟨_, hvB⟩ | ⟨huB, _⟩
    · exact List.ne_nil_of_mem hvB
    · exact List.ne_nil_of_mem huB
  rcases List.exists_cons_of_ne_nil hAne with ⟨a0, A', rfl⟩
  rcases List.exists_cons_of_ne_nil hBne with ⟨b0, B', rfl⟩
  have hLne : a0.data.length ≠ b0.data.length := by
    have ha0 : a0.data.length =
        (((a0 :: A').map flattenNd).headD []).length := rfl
    have hb0 : b0.data.length =
        (((b0 :: B').map flattenNd).headD []).length := rfl
    rcases hcross with ⟨huA, hvB⟩ | ⟨huB, hvA⟩
    · rw [← ha0] at hAeq
      rw [← hb0] at hBeq
      rw [← hAeq u huA, ← hBeq v hvB]
      exact hne
    · rw [← ha0] at hAeq
      rw [← hb0] at hBeq
      rw [← hAeq v hvA, ← hBeq u huB]
      exact fun hcontra => hne hcontra.symm
  have h1 := toMatrix_ok_of_all hallA
  have h2 := toMatrix_ok_of_all hallB
  have h3 := @stats_ok_of_ne_nil ((a0 :: A').map flattenNd) (by simp)
  have h4 := @stats_ok_of_ne_nil ((b0 :: B').map flattenNd) (by simp)
  have h5 : matmulT (((a0 :: A').map flattenNd).map centerRow)
      (((b0 :: B').map flattenNd).map centerRow) =
      Except.error
        (CorrErr.dimMismatch a0.data.length b0.data.length) := by
    have := matmulT_error_of_ne
      (X := ((a0 :: A').map flattenNd).map centerRow)
      (Y := ((b0 :: B').map flattenNd).map centerRow)
      (by simpa [centerRow_length, flattenNd] using hLne)
    simpa [centerRow_length, flattenNd] using this
  refine ⟨a0.data.length, b0.data.length, ?_, hLne, ⟨a0, by simp, rfl⟩,
    ⟨b0, by simp, rfl⟩⟩
  unfold pairwise_correlation
  simp only [h1, h2, h3, h4, h5, exceptBind_ok, exceptBind_error]

/-- Claim C7, counterexample to the claim as stated: on a ragged `A`
(flattened lengths 3 and 4) the surfaced error is the `np.array`
inhomogeneous-shape `ValueError`, whose message reports only the
detected outer shape `(2,)` and names neither of the two mismatched
flattened lengths — the error does not identify the offending shapes. -/
theorem pairwise_correlation_shape_report_counterexample :
    (⟨[3], [0, 0, 0]⟩ : NDArray).data.length ≠
        (⟨[4], [0, 0, 0, 0]⟩ : NDArray).data.length ∧
      pairwise_correlation [⟨[3], [0, 0, 0]⟩, ⟨[4], [0, 0, 0, 0]⟩]
          [⟨[3], [0, 0, 0]⟩] =
        Except.error (CorrErr.inhomogeneous [2]) ∧
      3 ∉ errReported (CorrErr.inhomogeneous [2]) ∧
      4 ∉ errReported (CorrErr.inhomogeneous [2]) := by
  refine ⟨by norm_num, ?_, by simp [errReported], by simp [errReported]⟩
  have h1 : toMatrix
      (([⟨[3], [0, 0, 0]⟩, ⟨[4], [0, 0, 0, 0]⟩] :
        List NDArray).map flattenNd) =
      Except.error (CorrErr.inhomogeneous [2]) := by
    apply toMatrix_error_of_not_all
    decide
  unfold pairwise_correlation
  simp only [h1, exceptBind_error]

/-- Claim C7 (amended: the mismatched flattened lengths are identified
when each list is internally homogeneous, so that the mismatch is
between `A` and `B`; a ragged list still raises, but `np.array`'s
error reports only the outer homogeneous shape, not the offending
lengths): whenever two neighborhoods in a call have different
flattened lengths, `pairwise_correlation` surfaces an error — never
silently swallowed or coerced — and in the cross-list case the
`np.matmul` error reports exactly the two mismatched lengths, each the
flattened length of an input neighborhood. -/
theorem pairwise_correlation_shape_mismatch :
    ∀ (A B : List NDArray) (u v : NDArray),
      u ∈ A ++ B → v ∈ A ++ B → u.data.length ≠ v.data.length →
      (∃ e, pairwise_correlation A B = Except.error e) ∧
        ((∀ a1 ∈ A, ∀ a2 ∈ A, a1.data.length = a2.data.length) →
          (∀ b1 ∈ B, ∀ b2 ∈ B, b1.data.length = b2.data.length) →
          ∃ la lb, pairwise_correlation A B =
              Except.error (CorrErr.dimMismatch la lb) ∧ la ≠ lb ∧
            (∃ a ∈ A, a.data.length = la) ∧
            (∃ b ∈ B, b.data.length = lb)) := by
  intro A B u v hu hv hne
  constructor
  · by_cases hallA : (A.map flattenNd).all
        (fun r => r.length == ((A.map flattenNd).headD []).length) = true
    · by_cases hallB : (B.map flattenNd).all
          (fun r => r.length == ((B.map flattenNd).headD []).length) = true
      · rcases pc_rect_mismatch_error A B u v hu hv hne hallA hallB with
          ⟨la, lb, herr, _⟩
        exact ⟨CorrErr.dimMismatch la lb, herr⟩
      · -- the B stack itself is ragged: `np.array` raises there
        have h1 := toMatrix_ok_of_all hallA
        have h2 := toMatrix_error_of_not_all hallB
        refine ⟨CorrErr.inhomogeneous [(B.map flattenNd).length], ?_⟩
        unfold pairwise_correlation
        simp only [h1, h2, exceptBind_ok, exceptBind_error]
    · -- the A stack itself is ragged: `np.array` raises there
      have h1 := toMatrix_error_of_not_all hallA
      refine ⟨CorrErr.inhomogeneous [(A.map flattenNd).length], ?_⟩
      unfold pairwise_correlation
      simp only [h1, exceptBind_error]
  · intro hAhom hBhom
    exact pc_rect_mismatch_error A B u v hu hv hne
      (all_check_of_hom hAhom) (all_check_of_hom hBhom)

/-! ## Neighborhood extraction (`get_contexts`)

The image is an n-dimensional array: a shape and a value for each
integer index vector.  `image[crop]` with
`crop = tuple(slice(int(x - r), int(x + r + 1)) for x, r in
zip(coord, radius))` selects, on each axis, the indices of a Python
slice (negative starts wrap, out-of-range bounds truncate — numpy basic
slicing); the extracted neighborhood is the sub-array over the
cartesian product of the per-axis index lists, in C order. -/

structure Image (β : Type) where
  shape : List ℕ
  val : List ℤ → β

/-- Python `slice.indices` normalization of one bound for step `1`:
negative indices wrap by `n`, then clamp into `[0, n]`. -/
def npClamp (n : ℕ) (i : ℤ) : ℤ :=
  if i < 0 then max (i + n) 0 else min i n

/-- `len` consecutive integers starting at `lo`. -/
def rangeFrom (lo : ℤ) (len : ℕ) : List ℤ :=
  (List.range len).map (fun (k : ℕ) => lo + (k : ℤ))

/-- The indices selected by `slice(start, stop)` on an axis of extent
`n`. -/
def npSliceIdx (n : ℕ) (start stop : ℤ) : List ℤ :=
  rangeFrom (npClamp n start) (npClamp n stop - npClamp n start).toNat

/-- Cartesian product of per-axis index lists, in C (row-major) order. -/
def cartProd : List (List ℤ) → List (List ℤ)
  | [] => [[]]
  | ax :: rest =>
    (ax.map (fun x => (cartProd rest).map (fun t => x :: t))).flatten

/-- An extracted neighborhood: the selected indices on each axis, and
the image values over their cartesian product. -/
structure Ctx (β : Type) where
  axes : List (List ℤ)
  values : List β

/-- The window extracted at one coordinate. -/
def extractCtx {β : Type} (img : Image β) (coord : List ℤ)
    (radius : List ℕ) : Ctx β :=
  let axes := ((coord.zip radius).zip img.shape).map
    (fun p => npSliceIdx p.2 ((p.1.1 : ℤ) - p.1.2) (p.1.1 + p.1.2 + 1))
  ⟨axes, (cartProd axes).map img.val⟩

/-- `get_contexts(image, coords, radius)` with a per-axis radius (the
scalar form first replicates the radius over every axis). -/
def get_contexts {β : Type} (img : Image β) (coords : List (List ℤ))
    (radius : List ℕ) : List (Ctx β) :=
  coords.map (fun c => extractCtx img c radius)

theorem getD_replicate_of_lt {β : Type} {n k : ℕ} (x d : β) (h : k < n) :
    (List.replicate n x).getD k d = x := by
  rw [List.getD_eq_getElem?_getD, List.getElem?_replicate, if_pos h]
  rfl

theorem getD_zip {β γ : Type} :
    ∀ (l1 : List β) (l2 : List γ) (k : ℕ), k < l1.length →
      k < l2.length → ∀ (d1 : β) (d2 : γ),
      (l1.zip l2).getD k (d1, d2) = (l1.getD k d1, l2.getD k d2)
  | [], _, k, h1, _, _, _ => absurd h1 (by simp)
  | _ :: _, [], _, _, h2, _, _ => absurd h2 (by simp)
  | a :: l1, b :: l2, 0, _, _, d1, d2 => rfl
  | a :: l1, b :: l2, (k + 1), h1, h2, d1, d2 => by
    simp only [List.zip_cons_cons, List.getD_cons_succ]
    exact getD_zip l1 l2 k (by simpa using h1) (by simpa using h2) d1 d2

theorem npClamp_of_interior {n : ℕ} {i : ℤ} (h0 : 0 ≤ i) (h1 : i ≤ n) :
    npClamp n i = i := by
  unfold npClamp
  rw [if_neg (not_lt.mpr h0), min_eq_left h1]

/-- On an interior coordinate the slice `[c - r, c + r + 1)` selects
exactly the `2r + 1` indices `c - r, …, c + r`. -/
theorem npSliceIdx_interior {n : ℕ} {c : ℤ} {r : ℕ} (h1 : (r : ℤ) ≤ c)
    (h2 : c + r < n) :
    npSliceIdx n (c - r) (c + r + 1) = rangeFrom (c - r) (2 * r + 1) := by
  have hr0 : (0 : ℤ) ≤ r := Int.natCast_nonneg r
  unfold npSliceIdx
  rw [npClamp_of_interior (by linarith) (by linarith),
    npClamp_of_interior (by linarith) (by linarith)]
  have htn : (c + r + 1 - (c - r)).toNat = 2 * r + 1 := by omega
  rw [htn]

/-- Claim C8 (confirmed): for a scalar radius `r` and coordinates
interior to the image (`c - r ≥ 0` and `c + r` within bounds on every
axis), `get_contexts` returns one neighborhood per coordinate in the
same order as `coords`, and each neighborhood spans the inclusive index
range `[c - r, c + r]` on each axis, so its extent there is exactly
`2r + 1`. -/
theorem get_contexts_window :
    ∀ (β : Type) (img : Image β) (coords : List (List ℤ)) (r : ℕ),
      (∀ c ∈ coords, c.length = img.shape.length ∧
        ∀ k < c.length, (r : ℤ) ≤ c.getD k 0 ∧
          c.getD k 0 + r < (img.shape.getD k 0 : ℤ)) →
      (get_contexts img coords
          (List.replicate img.shape.length r)).length = coords.length ∧
      ∀ i < coords.length, ∀ k < img.shape.length,
        ((get_contexts img coords
              (List.replicate img.shape.length r)).getD i
            ⟨[], []⟩).axes.getD k [] =
          rangeFrom ((coords.getD i []).getD k 0 - (r : ℤ)) (2 * r + 1) ∧
        (((get_contexts img coords
              (List.replicate img.shape.length r)).getD i
            ⟨[], []⟩).axes.getD k []).length = 2 * r + 1 := by
  intro β img coords r hint
  refine ⟨by simp [get_contexts], ?_⟩
  intro i hi k hk
  unfold get_contexts
  rw [getD_map_of_lt
    (fun c => extractCtx img c (List.replicate img.shape.length r)) hi
    (⟨[], []⟩ : Ctx β) ([] : List ℤ)]
  obtain ⟨hclen, hcint⟩ := hint (coords.getD i []) (getD_mem [] hi)
  have hk' : k < (coords.getD i []).length := by rw [hclen]; exact hk
  have hzlen : k < ((coords.getD i []).zip
      (List.replicate img.shape.length r)).length := by
    rw [List.length_zip, hclen, List.length_replicate]
    exact lt_min hk hk
  have haxes : (extractCtx img (coords.getD i [])
      (List.replicate img.shape.length r)).axes.getD k [] =
      rangeFrom ((coords.getD i []).getD k 0 - (r : ℤ)) (2 * r + 1) := by
    unfold extractCtx
    rw [getD_map_of_lt _ (by
        rw [List.length_zip]
        exact lt_min hzlen hk) [] ((0, 0), 0)]
    rw [getD_zip _ _ _ hzlen hk (0, 0) 0,
      getD_zip _ _ _ hk' (by rw [List.length_replicate]; exact hk) 0 0]
    rw [getD_replicate_of_lt r 0 hk]
    exact npSliceIdx_interior (hcint k hk').1 (hcint k hk').2
  refine ⟨haxes, ?_⟩
  rw [haxes]
  simp only [rangeFrom, List.length_map, List.length_range]

/-- Witness for C8: a 1-D image of extent 7, coordinate 3, radius 2. -/
theorem get_contexts_window_witness :
    (get_contexts ⟨[7], fun ix => ix.headD 0⟩ [[3]]
        (List.replicate 1 2)).length = 1 ∧
      ∀ i < 1, ∀ k < 1,
        ((get_contexts (⟨[7], fun ix => ix.headD 0⟩ : Image ℤ) [[3]]
              (List.replicate 1 2)).getD i ⟨[], []⟩).axes.getD k [] =
          rangeFrom ((([[3]] : List (List ℤ)).getD i []).getD k 0
            - ((2 : ℕ) : ℤ)) (2 * 2 + 1) ∧
        (((get_contexts (⟨[7], fun ix => ix.headD 0⟩ : Image ℤ) [[3]]
              (List.replicate 1 2)).getD i ⟨[], []⟩).axes.getD k
            []).length = 5 :=
  get_contexts_window ℤ ⟨[7], fun ix => ix.headD 0⟩ [[3]] 2
    (by
      intro c hc
      rw [List.mem_singleton.mp hc]
      refine ⟨rfl, ?_⟩
      intro k hkc
      simp only [List.length_cons, List.length_nil] at hkc
      interval_cases k
      constructor <;> norm_num)

/-- Witness for C7's amended theorem: homogeneous singleton lists of
flattened lengths 3 and 4, where `np.matmul`'s error names both. -/
theorem pairwise_correlation_shape_mismatch_witness :
    ∃ la lb, pairwise_correlation [⟨[3], [0, 0, 0]⟩] [⟨[4], [0, 0, 0, 0]⟩]
          = Except.error (CorrErr.dimMismatch la lb) ∧ la ≠ lb ∧
        (∃ a ∈ [(⟨[3], [0, 0, 0]⟩ : NDArray)], a.data.length = la) ∧
        (∃ b ∈ [(⟨[4], [0, 0, 0, 0]⟩ : NDArray)], b.data.length = lb) :=
  (pairwise_correlation_shape_mismatch [⟨[3], [0, 0, 0]⟩]
      [⟨[4], [0, 0, 0, 0]⟩] ⟨[3], [0, 0, 0]⟩ ⟨[4], [0, 0, 0, 0]⟩
      (by simp) (by simp) (by norm_num)).2
    (by
      intro a1 h1 a2 h2
      rw [List.mem_singleton.mp h1, List.mem_singleton.mp h2])
    (by
      intro b1 h1 b2 h2
      rw [List.mem_singleton.mp h1, List.mem_singleton.mp h2])

end Features
